import Mathlib

/-!
Verification of the Spec-Flow repository against its natural-language
specification.

Part 1 models the multi-agent vote aggregation engine described in the
specification (sections 2-4 and 6-8).  The engine's implementation is not
shipped under src/ of this snapshot, so the definitions in this part are
modelled from the spec, as their doc comments record.  Weights and
percentages are modelled as rational numbers (the spec speaks of
non-negative real numbers).

Part 2 embeds the slug generator of
src/.spec-flow/scripts/python/spec-cli.py and part 3 the report generator
of src/.spec-flow/scripts/python/early-gap-detector.py, directly from the
Python source.
-/

namespace SpecFlow

/-- Modelled from the spec: a vote is one of approve, reject, abstain
(spec section 3, "Vote"); the aggregation engine itself is missing from
src/. -/
inductive Vote where
  | approve
  | reject
  | abstain
deriving DecidableEq, Repr

/-- Modelled from the spec: the output decision is exactly one of
approve or reject; abstain is never a final decision (spec section 3,
"Decision"). -/
inductive Decision where
  | approve
  | reject
deriving DecidableEq, Repr

/-- Modelled from the spec: the four aggregation strategies
(spec section 3, "Strategy"). -/
inductive Strategy where
  | firstToAheadByK
  | unanimousStrat
  | majorityStrat
  | weightedStrat
deriving DecidableEq, Repr

/-- Modelled from the spec: the single validation error kind
`InvalidInput` (spec section 7). -/
structure InvalidInput where
  msg : String
deriving DecidableEq, Repr

/-- Modelled from the spec: the metadata record describing a run
(spec section 3, "Metadata", and the per-strategy field lists of
sections 4.2-4.5).  The reference implementation uses one loosely typed
map whose populated fields differ per strategy; here a single record
holds every field, with neutral defaults for the fields a strategy does
not populate.  Batch strategies consume the whole sequence, so for them
votes_used equals total_votes and early_stop is false. -/
structure Metadata where
  votes_used : Nat := 0
  total_votes : Nat := 0
  approve_count : Nat := 0
  reject_count : Nat := 0
  abstain_count : Nat := 0
  early_stop : Bool := false
  k_threshold : Int := 0
  margin : Int := 0
  tie_broken : Bool := false
  unanimous : Bool := false
  percentage : Rat := 0
  tie : Bool := false
  approve_weight : Rat := 0
  reject_weight : Rat := 0
  abstain_weight : Rat := 0
  total_weight : Rat := 0
deriving DecidableEq, Repr

/-- Modelled from the spec: lowercase normalization of an input string
at ASCII granularity (Python str.lower), written over the character
data of the string. -/
def lowerAscii (s : String) : String :=
  String.mk (s.data.map Char.toLower)

/-- Modelled from the spec: votes are case-insensitive on input and
normalized to lowercase before matching against
{approve, reject, abstain} (spec sections 3 and 4.1). -/
def parseVote (s : String) : Option Vote :=
  match lowerAscii s with
  | "approve" => some Vote.approve
  | "reject" => some Vote.reject
  | "abstain" => some Vote.abstain
  | _ => none

/-- Modelled from the spec: the strategy name is matched
case-insensitively against the four recognized names
(spec section 4.1). -/
def parseStrategy (s : String) : Option Strategy :=
  match lowerAscii s with
  | "first_to_ahead_by_k" => some Strategy.firstToAheadByK
  | "unanimous" => some Strategy.unanimousStrat
  | "majority" => some Strategy.majorityStrat
  | "weighted" => some Strategy.weightedStrat
  | _ => none

/-- Modelled from the spec: every vote value is validated (and parsed)
before any counting begins (spec section 4.1); none signals the first
invalid vote. -/
def parseVotes : List String → Option (List Vote)
  | [] => some []
  | v :: vs =>
    match parseVote v, parseVotes vs with
    | some x, some xs => some (x :: xs)
    | _, _ => none

/-- Modelled from the spec: the sequential loop of first_to_ahead_by_k
(spec section 4.2).  Arguments: margin threshold k, total number of
votes, remaining votes, number of votes already consumed, and the two
running counters. -/
def ftakGo (k : Int) (total : Nat) : List Vote → Nat → Nat → Nat → Decision × Metadata
  | [], _, a, r =>
      let d := if r < a then Decision.approve else Decision.reject
      (d, { votes_used := total, total_votes := total, approve_count := a,
            reject_count := r, k_threshold := k,
            margin := (((a : Int) - (r : Int)).natAbs : Int),
            early_stop := false, tie_broken := decide (a = r) })
  | v :: rest, used, a, r =>
      let a' := if v = Vote.approve then a + 1 else a
      let r' := if v = Vote.reject then r + 1 else r
      let m : Int := (a' : Int) - (r' : Int)
      if k ≤ m then
        (Decision.approve,
         { votes_used := used + 1, total_votes := total, approve_count := a',
           reject_count := r', k_threshold := k, margin := m,
           early_stop := decide (used + 1 < total), tie_broken := false })
      else if m ≤ -k then
        (Decision.reject,
         { votes_used := used + 1, total_votes := total, approve_count := a',
           reject_count := r', k_threshold := k, margin := m,
           early_stop := decide (used + 1 < total), tie_broken := false })
      else ftakGo k total rest (used + 1) a' r'

/-- Modelled from the spec: the first_to_ahead_by_k strategy processes
votes strictly in input order with both counters starting at 0
(spec section 4.2). -/
def firstToAheadByK (votes : List Vote) (k : Int) : Decision × Metadata :=
  ftakGo k votes.length votes 0 0 0

/-- Modelled from the spec: the unanimous batch strategy
(spec section 4.3). -/
def unanimousStrategy (votes : List Vote) : Decision × Metadata :=
  let a := votes.count Vote.approve
  let r := votes.count Vote.reject
  let ab := votes.count Vote.abstain
  let d := if 0 < r then Decision.reject
           else if 0 < a then Decision.approve
           else Decision.reject
  (d, { votes_used := votes.length, total_votes := votes.length,
        approve_count := a, reject_count := r, abstain_count := ab,
        early_stop := false, unanimous := decide (r = 0 ∧ 1 ≤ a) })

/-- Modelled from the spec: the majority batch strategy
(spec section 4.4). -/
def majorityStrategy (votes : List Vote) : Decision × Metadata :=
  let a := votes.count Vote.approve
  let r := votes.count Vote.reject
  let ab := votes.count Vote.abstain
  let na := a + r
  let d := if na = 0 then Decision.reject
           else if r < a then Decision.approve
           else Decision.reject
  (d, { votes_used := votes.length, total_votes := votes.length,
        approve_count := a, reject_count := r, abstain_count := ab,
        early_stop := false,
        percentage := if na = 0 then 0 else (a : Rat) / (na : Rat) * 100,
        tie := decide (a = r ∧ 0 < na) })

/-- Modelled from the spec: the weighted batch strategy sums weights per
vote category using the positional pairing (spec section 4.5). -/
def weightedStrategy (votes : List Vote) (weights : List Rat) : Decision × Metadata :=
  let pairs := votes.zip weights
  let aw := ((pairs.filter (fun p => p.1 = Vote.approve)).map (fun p => p.2)).sum
  let rw := ((pairs.filter (fun p => p.1 = Vote.reject)).map (fun p => p.2)).sum
  let abw := ((pairs.filter (fun p => p.1 = Vote.abstain)).map (fun p => p.2)).sum
  let tw := aw + rw
  let d := if tw = 0 then Decision.reject
           else if rw < aw then Decision.approve
           else Decision.reject
  (d, { votes_used := votes.length, total_votes := votes.length,
        early_stop := false, approve_weight := aw, reject_weight := rw,
        abstain_weight := abw, total_weight := tw,
        percentage := if tw = 0 then 0 else aw / tw * 100 })

/-- Modelled from the spec: dispatch to the selected strategy
(spec section 2). -/
def runStrategy : Strategy → List Vote → Int → List Rat → Decision × Metadata
  | Strategy.firstToAheadByK, votes, k, _ => firstToAheadByK votes k
  | Strategy.unanimousStrat, votes, _, _ => unanimousStrategy votes
  | Strategy.majorityStrat, votes, _, _ => majorityStrategy votes
  | Strategy.weightedStrat, votes, _, ws => weightedStrategy votes ws

/-- Modelled from the spec: aggregate() validates the input (empty vote
list, unrecognized strategy, invalid vote value, mismatched weight-list
length, in that spirit of section 4.1) and then dispatches; weights
default to 1.0 for every vote when omitted (spec sections 3 and 6). -/
def aggregate (votes : List String) (strategy : String) (k : Int)
    (weights : Option (List Rat)) : Except InvalidInput (Decision × Metadata) :=
  if votes.isEmpty then Except.error ⟨"empty vote list"⟩
  else
    match parseStrategy strategy with
    | none => Except.error ⟨"unrecognized strategy"⟩
    | some strat =>
      match parseVotes votes with
      | none => Except.error ⟨"invalid vote value"⟩
      | some parsed =>
        match weights with
        | some ws =>
          if ws.length = votes.length then Except.ok (runStrategy strat parsed k ws)
          else Except.error ⟨"weight list length mismatch"⟩
        | none =>
          Except.ok (runStrategy strat parsed k (List.replicate votes.length 1))

/-- Modelled from the spec: the signed margin after the first j votes
(spec section 4.2 and the glossary entry "Margin"). -/
def marginAt (votes : List Vote) (j : Nat) : Int :=
  (((votes.take j).count Vote.approve : Int)) - (((votes.take j).count Vote.reject : Int))

/-- Modelled from the spec: the spec-side description of
first_to_ahead_by_k as a first-passage rule: the least 1-based position
whose running margin reaches either threshold decides early; otherwise
the endpoint comparison with tie resolving to reject (spec section
4.2).  Stated non-recursively so the recursive loop can be proved
equivalent to it. -/
def ftakSpec (votes : List Vote) (k : Int) : Decision × Metadata :=
  let n := votes.length
  match (List.range' 1 n).find? (fun j => decide (k ≤ marginAt votes j ∨ marginAt votes j ≤ -k)) with
  | some j =>
    let a := (votes.take j).count Vote.approve
    let r := (votes.take j).count Vote.reject
    ((if k ≤ marginAt votes j then Decision.approve else Decision.reject),
     { votes_used := j, total_votes := n, approve_count := a,
       reject_count := r, k_threshold := k, margin := marginAt votes j,
       early_stop := decide (j < n), tie_broken := false })
  | none =>
    let a := votes.count Vote.approve
    let r := votes.count Vote.reject
    ((if r < a then Decision.approve else Decision.reject),
     { votes_used := n, total_votes := n, approve_count := a,
       reject_count := r, k_threshold := k,
       margin := (((a : Int) - (r : Int)).natAbs : Int),
       early_stop := false, tie_broken := decide (a = r) })

/-!
Part 2: the slug generator `generate_slug` of
src/.spec-flow/scripts/python/spec-cli.py (lines 82-110), embedded over
lists of characters.  Python's `re` escapes are modelled at ASCII
granularity: a word character is an ASCII alphanumeric or an
underscore, whitespace is the six ASCII space characters.  The two
phrase-removal regex substitutions are modelled by explicit
left-to-right scanners with a fuel argument; every match consumes at
least one character, so fuel equal to the input length makes the
scanner total and faithful.
-/

/-- A character matched by the character class [a-z0-9] of the regex in
generate_slug (spec-cli.py line 91). -/
def isLowerAlnum (c : Char) : Bool :=
  (decide ('a' ≤ c) && decide (c ≤ 'z')) || (decide ('0' ≤ c) && decide (c ≤ '9'))

/-- ASCII model of the regex word character \w used by the boundary
\b in the phrase-removal patterns (spec-cli.py lines 87-88). -/
def isWordChar (c : Char) : Bool :=
  c.isAlphanum || decide (c = '_')

/-- ASCII model of the regex whitespace class \s (spec-cli.py
line 87): space, tab, newline, carriage return, vertical tab, form
feed. -/
def isSpaceChar (c : Char) : Bool :=
  decide (c = ' ') || decide (c = '\t') || decide (c = '\n') || decide (c = '\r')
    || decide (c = Char.ofNat 11) || decide (c = Char.ofNat 12)

/-- Match the literal word w at the head of l and return the rest, or
none. -/
def chopLead : List Char → List Char → Option (List Char)
  | [], l => some l
  | _ :: _, [] => none
  | a :: w, b :: l => if a = b then chopLead w l else none

/-- The word boundary \b after a match that ends in a word character:
satisfied at end of input or before a non-word character. -/
def boundaryAfter : List Char → Bool
  | [] => true
  | c :: _ => !isWordChar c

/-- The word boundary \b before a match that starts with a word
character: satisfied at the start of input or after a non-word
character; prev holds the previous character of the original string. -/
def atBoundary : Option Char → Bool
  | none => true
  | some p => !isWordChar p

/-- Greedy \s+: require at least one whitespace character and drop the
whole maximal run (the following literal in both patterns starts with a
non-whitespace character, so greedy matching is exact). -/
def munchSpaces : List Char → Option (List Char)
  | [] => none
  | c :: rest => if isSpaceChar c then some (rest.dropWhile isSpaceChar) else none

/-- Match a whole word followed by the boundary \b (the word itself
ends in a word character). -/
def tryWordAt (w : List Char) (l : List Char) : Option (List Char) :=
  match chopLead w l with
  | some rest => if boundaryAfter rest then some rest else none
  | none => none

/-- Match the body of the pattern (we|i)\s+want\s+to\b at the head of
l (spec-cli.py line 87); alternatives are tried in pattern order, and
since no string starts with both "we" and "i" the alternation is
deterministic. -/
def tryWantTo (l : List Char) : Option (List Char) :=
  match (match chopLead ['w', 'e'] l with
         | some r => some r
         | none => chopLead ['i'] l) with
  | none => none
  | some r1 =>
    match munchSpaces r1 with
    | none => none
    | some r2 =>
      match chopLead ['w', 'a', 'n', 't'] r2 with
      | none => none
      | some r3 =>
        match munchSpaces r3 with
        | none => none
        | some r4 => tryWordAt ['t', 'o'] r4

/-- The left-to-right substitution scanner for the pattern
\b(we|i)\s+want\s+to\b with empty replacement (spec-cli.py line 87).
After a match, scanning resumes after the match, with the final
matched character (the o of "to") as the previous character. -/
def subWantToGo : Nat → Option Char → List Char → List Char
  | 0, _, l => l
  | _ + 1, _, [] => []
  | fuel + 1, prev, c :: rest =>
    if atBoundary prev then
      match tryWantTo (c :: rest) with
      | some rest' => subWantToGo fuel (some ('o')) rest'
      | none => c :: subWantToGo fuel (some c) rest
    else c :: subWantToGo fuel (some c) rest

/-- The alternatives of the pattern \b(get|to|with|for|the|a|an)\b in
pattern order (spec-cli.py line 88). -/
def stopwords : List (List Char) :=
  [['g', 'e', 't'],
   ['t', 'o'],
   ['w', 'i', 't', 'h'],
   ['f', 'o', 'r'],
   ['t', 'h', 'e'],
   ['a'],
   ['a', 'n']]

/-- Try each stopword alternative in order at the head of l; on success
return the last character of the matched word (the new previous
character) and the rest of the input. -/
def tryStopwords : List (List Char) → List Char → Option (Char × List Char)
  | [], _ => none
  | w :: ws, l =>
    match tryWordAt w l with
    | some rest => some (w.getLastD ('a'), rest)
    | none => tryStopwords ws l

/-- The left-to-right substitution scanner for the pattern
\b(get|to|with|for|the|a|an)\b with empty replacement (spec-cli.py
line 88). -/
def subStopwordsGo : Nat → Option Char → List Char → List Char
  | 0, _, l => l
  | _ + 1, _, [] => []
  | fuel + 1, prev, c :: rest =>
    if atBoundary prev then
      match tryStopwords stopwords (c :: rest) with
      | some (last, rest') => subStopwordsGo fuel (some last) rest'
      | none => c :: subStopwordsGo fuel (some c) rest
    else c :: subStopwordsGo fuel (some c) rest

/-- The substitution re.sub of [^a-z0-9]+ by a single hyphen
(spec-cli.py line 91): inRun records being inside a run of characters
outside [a-z0-9] whose hyphen has already been emitted. -/
def hyphenateGo : Bool → List Char → List Char
  | _, [] => []
  | inRun, c :: rest =>
    if isLowerAlnum c then c :: hyphenateGo false rest
    else if inRun then hyphenateGo true rest
    else '-' :: hyphenateGo true rest

/-- Python str.lstrip of the single character hyphen. -/
def dropLeadHyphens (l : List Char) : List Char :=
  l.dropWhile (fun c => decide (c = '-'))

/-- Python str.rstrip of the single character hyphen (spec-cli.py
lines 94 and 97). -/
def dropTrailHyphens (l : List Char) : List Char :=
  (l.reverse.dropWhile (fun c => decide (c = '-'))).reverse

/-- The substring test ".." in slug (spec-cli.py line 105). -/
def hasDotDot : List Char → Bool
  | [] => false
  | c :: rest =>
    match rest with
    | d :: _ => (decide (c = '.') && decide (d = '.')) || hasDotDot rest
    | [] => false

/-- The slug generator generate_slug of spec-cli.py (lines 82-110):
lowercase, remove the two phrase patterns, collapse every run of
characters outside [a-z0-9] to one hyphen, strip hyphens at both ends,
truncate to 50 characters and strip trailing hyphens again; exit (here:
none) on an empty result or on path-traversal characters.  Char.toLower
models Python str.lower at ASCII granularity. -/
def generate_slug (arguments : List Char) : Option (List Char) :=
  let s1 := arguments.map Char.toLower
  let s2 := subWantToGo s1.length none s1
  let s3 := subStopwordsGo s2.length none s2
  let s4 := hyphenateGo false s3
  let s5 := dropTrailHyphens (dropLeadHyphens s4)
  let slug := dropTrailHyphens (s5.take 50)
  if slug.isEmpty then none
  else if hasDotDot slug || slug.contains '/' then none
  else some slug

/-!
Part 3: the gap report of
src/.spec-flow/scripts/python/early-gap-detector.py.  A detector state
is its list of collected gaps (EarlyGapDetector.gaps); confidences are
modelled as rationals.
-/

/-- The Gap dataclass of early-gap-detector.py (lines 26-34); the field
named type in Python is gap_type here. -/
structure Gap where
  gap_type : String
  file : String
  line : Nat
  description : String
  confidence : Rat
  code_snippet : String
deriving DecidableEq, Repr

/-- One step of the grouping loop of generate_report (early-gap-
detector.py lines 229-233): append the gap to its type's list, creating
the entry at the end on first sight, as a Python dict does. -/
def insertByType (acc : List (String × List Gap)) (g : Gap) : List (String × List Gap) :=
  match acc with
  | [] => [(g.gap_type, [g])]
  | (t, gs) :: rest =>
    if t = g.gap_type then (t, gs ++ [g]) :: rest
    else (t, gs) :: insertByType rest g

/-- The gaps_by_type grouping of generate_report (early-gap-detector.py
lines 229-233). -/
def gapsByType (gaps : List Gap) : List (String × List Gap) :=
  gaps.foldl insertByType []

/-- The report dictionary returned by generate_report
(early-gap-detector.py lines 235-241). -/
structure GapReport where
  total_gaps : Nat
  gaps_by_type : List (String × List Gap)
  high_confidence : Nat
  medium_confidence : Nat
  low_confidence : Nat
deriving Repr

/-- EarlyGapDetector.generate_report (early-gap-detector.py lines
222-241) as a function of the detector's gap list. -/
def generate_report (gaps : List Gap) : GapReport :=
  { total_gaps := gaps.length
    gaps_by_type := gapsByType gaps
    high_confidence := (gaps.filter (fun g => decide ((0.8 : Rat) ≤ g.confidence))).length
    medium_confidence :=
      (gaps.filter (fun g => decide ((0.6 : Rat) ≤ g.confidence ∧ g.confidence < (0.8 : Rat)))).length
    low_confidence := (gaps.filter (fun g => decide (g.confidence < (0.6 : Rat)))).length }

/-!
Helper lemmas.
-/

theorem filter3_length {α : Type} (p q r : α → Bool)
    (h : ∀ x : α,
      (p x = true ∧ q x = false ∧ r x = false) ∨
      (p x = false ∧ q x = true ∧ r x = false) ∨
      (p x = false ∧ q x = false ∧ r x = true)) :
    ∀ l : List α,
      (l.filter p).length + (l.filter q).length + (l.filter r).length = l.length := by
  intro l
  induction l with
  | nil => simp
  | cons x xs ih =>
    rcases h x with ⟨h1, h2, h3⟩ | ⟨h1, h2, h3⟩ | ⟨h1, h2, h3⟩ <;>
      simp [List.filter_cons, h1, h2, h3] <;> omega

theorem typeSum_insertByType (g : Gap) :
    ∀ acc : List (String × List Gap),
      ((insertByType acc g).map (fun p => p.2.length)).sum
        = ((acc.map (fun p => p.2.length)).sum) + 1 := by
  intro acc
  induction acc with
  | nil => simp [insertByType]
  | cons hd tl ih =>
    obtain ⟨t, gs⟩ := hd
    by_cases ht : t = g.gap_type
    · simp [insertByType, ht]
      omega
    · simp [insertByType, ht, ih]
      omega

theorem typeSum_foldl (gaps : List Gap) :
    ∀ acc : List (String × List Gap),
      (((gaps.foldl insertByType acc).map (fun p => p.2.length)).sum)
        = ((acc.map (fun p => p.2.length)).sum) + gaps.length := by
  induction gaps with
  | nil => intro acc; simp
  | cons g gs ih =>
    intro acc
    simp only [List.foldl_cons, List.length_cons]
    rw [ih (insertByType acc g), typeSum_insertByType]
    omega

/-- C10: for every detector state, the report of generate_report has
high_confidence + medium_confidence + low_confidence = total_gaps,
total_gaps is the number of detected gaps, and the per-type lists of
gaps_by_type hold total_gaps gaps in all: the bands >= 0.8, [0.6, 0.8)
and < 0.6 partition the gaps. -/
theorem generate_report_counts (gaps : List Gap) :
    (generate_report gaps).high_confidence + (generate_report gaps).medium_confidence
        + (generate_report gaps).low_confidence = (generate_report gaps).total_gaps ∧
    (generate_report gaps).total_gaps = gaps.length ∧
    (((generate_report gaps).gaps_by_type.map (fun p => p.2.length)).sum
        = (generate_report gaps).total_gaps) := by
  refine ⟨?_, rfl, ?_⟩
  · show (gaps.filter _).length + (gaps.filter _).length + (gaps.filter _).length = gaps.length
    apply filter3_length
    intro g
    rcases lt_or_le g.confidence (0.6 : Rat) with h6 | h6
    · have h8 : g.confidence < (0.8 : Rat) := lt_of_lt_of_le h6 (by norm_num)
      refine Or.inr (Or.inr ⟨?_, ?_, ?_⟩)
      · exact decide_eq_false (not_le.mpr h8)
      · refine decide_eq_false ?_
        rintro ⟨hge, _⟩
        exact absurd h6 (not_lt.mpr hge)
      · exact decide_eq_true h6
    · rcases lt_or_le g.confidence (0.8 : Rat) with h8 | h8
      · exact Or.inr (Or.inl ⟨decide_eq_false (not_le.mpr h8),
          decide_eq_true ⟨h6, h8⟩, decide_eq_false (not_lt.mpr h6)⟩)
      · refine Or.inl ⟨decide_eq_true h8, ?_,
          decide_eq_false (not_lt.mpr (le_trans (by norm_num) h8))⟩
        refine decide_eq_false ?_
        rintro ⟨_, hlt⟩
        exact absurd hlt (not_lt.mpr h8)
  · show ((gapsByType gaps).map (fun p => p.2.length)).sum = gaps.length
    have := typeSum_foldl gaps []
    simpa [gapsByType] using this

theorem dropWhile_head_false {α : Type} (p : α → Bool) :
    ∀ (l : List α) (c : α) (t : List α), l.dropWhile p = c :: t → p c = false := by
  intro l
  induction l with
  | nil => intro c t h; simp at h
  | cons x xs ih =>
    intro c t h
    rw [List.dropWhile_cons] at h
    by_cases hx : p x
    · exact ih c t (by simpa [hx] using h)
    · simp only [hx, if_false] at h
      rcases List.cons_eq_cons.mp h with ⟨rfl, -⟩
      simpa using hx

theorem dropWhile_head?_false {α : Type} (p : α → Bool) (l : List α) (c : α)
    (h : (l.dropWhile p).head? = some c) : p c = false := by
  cases hd : l.dropWhile p with
  | nil => rw [hd] at h; simp at h
  | cons x t =>
    rw [hd] at h
    simp only [List.head?_cons, Option.some_inj] at h
    subst h
    exact dropWhile_head_false p l x t hd

theorem dropTrailHyphens_isPrefix (l : List Char) : dropTrailHyphens l <+: l := by
  rw [← List.reverse_suffix]
  simpa [dropTrailHyphens] using
    List.dropWhile_suffix (l := l.reverse) (fun c => decide (c = '-'))

theorem head?_mono_of_isPrefix {α : Type} {l₁ l₂ : List α} (hp : l₁ <+: l₂) {c : α}
    (h : l₁.head? = some c) : l₂.head? = some c := by
  obtain ⟨s, rfl⟩ := hp
  cases l₁ with
  | nil => simp at h
  | cons x t => simpa using h

theorem dropTrailHyphens_getLast_ne (l : List Char) (c : Char)
    (h : (dropTrailHyphens l).getLast? = some c) : c ≠ '-' := by
  have h2 : ((l.reverse.dropWhile (fun c => decide (c = '-'))).head?) = some c := by
    simpa [dropTrailHyphens] using h
  have hf := dropWhile_head?_false _ _ _ h2
  simpa using hf

theorem mem_hyphenateGo : ∀ (b : Bool) (l : List Char) (c : Char),
    c ∈ hyphenateGo b l → isLowerAlnum c = true ∨ c = '-' := by
  intro b l
  induction l generalizing b with
  | nil => intro c h; simp [hyphenateGo] at h
  | cons x xs ih =>
    intro c h
    cases hx : isLowerAlnum x with
    | true =>
      rw [show hyphenateGo b (x :: xs) = x :: hyphenateGo false xs by
            simp [hyphenateGo, hx]] at h
      rcases List.mem_cons.mp h with rfl | h
      · exact Or.inl hx
      · exact ih false c h
    | false =>
      cases b with
      | true =>
        rw [show hyphenateGo true (x :: xs) = hyphenateGo true xs by
              simp [hyphenateGo, hx]] at h
        exact ih true c h
      | false =>
        rw [show hyphenateGo false (x :: xs) = '-' :: hyphenateGo true xs by
              simp [hyphenateGo, hx]] at h
        rcases List.mem_cons.mp h with rfl | h
        · exact Or.inr rfl
        · exact ih true c h

theorem slugChar_not_space_not_upper (c : Char)
    (h : isLowerAlnum c = true ∨ c = '-') :
    isSpaceChar c = false ∧ ¬('A' ≤ c ∧ c ≤ 'Z') := by
  rcases h with h | rfl
  · simp only [isLowerAlnum, Bool.or_eq_true, Bool.and_eq_true, decide_eq_true_eq] at h
    constructor
    · simp only [isSpaceChar, Bool.or_eq_false_iff, decide_eq_false_iff_not]
      refine ⟨⟨⟨⟨⟨?_, ?_⟩, ?_⟩, ?_⟩, ?_⟩, ?_⟩ <;> rintro rfl <;>
        rcases h with ⟨h1, h2⟩ | ⟨h1, h2⟩ <;> revert h1 <;> decide
    · rintro ⟨hA, hZ⟩
      rcases h with ⟨h1, h2⟩ | ⟨h1, h2⟩
      · exact absurd (le_trans h1 hZ) (by decide)
      · exact absurd (le_trans hA h2) (by decide)
  · exact ⟨by decide, by decide⟩

/-- C9: whenever generate_slug returns normally (instead of exiting),
the slug is non-empty, at most 50 characters, made only of lowercase
ASCII letters, digits and hyphens, starts and ends with a non-hyphen,
and contains no "..", no "/", no whitespace and no uppercase ASCII
letter. -/
theorem generate_slug_sound (arguments out : List Char)
    (h : generate_slug arguments = some out) :
    out ≠ [] ∧ out.length ≤ 50 ∧
    (∀ c ∈ out, isLowerAlnum c = true ∨ c = '-') ∧
    (∀ c, out.head? = some c → c ≠ '-') ∧
    (∀ c, out.getLast? = some c → c ≠ '-') ∧
    hasDotDot out = false ∧ out.contains '/' = false ∧
    (∀ c ∈ out, isSpaceChar c = false ∧ ¬('A' ≤ c ∧ c ≤ 'Z')) := by
  simp only [generate_slug] at h
  set s3 := subStopwordsGo (subWantToGo (arguments.map Char.toLower).length none
      (arguments.map Char.toLower)).length none
      (subWantToGo (arguments.map Char.toLower).length none
      (arguments.map Char.toLower)) with hs3
  set s4 := hyphenateGo false s3 with hs4
  set s5 := dropTrailHyphens (dropLeadHyphens s4) with hs5
  set slug := dropTrailHyphens (s5.take 50) with hslug
  split_ifs at h with h1 h2
  rw [Option.some_inj] at h
  subst h
  have hne : slug ≠ [] := by
    intro hnil
    rw [hnil] at h1
    exact h1 rfl
  have hdots : hasDotDot slug = false ∧ slug.contains '/' = false := by
    rcases Bool.or_eq_false_iff.mp (Bool.not_eq_true _ |>.mp h2) with ⟨ha, hb⟩
    exact ⟨ha, hb⟩
  have hsub : ∀ c ∈ slug, c ∈ s4 := by
    intro c hc
    have hc1 : c ∈ s5.take 50 := (dropTrailHyphens_isPrefix _).sublist.subset hc
    have hc2 : c ∈ s5 := (List.take_prefix 50 s5).sublist.subset hc1
    have hc3 : c ∈ dropLeadHyphens s4 :=
      (dropTrailHyphens_isPrefix _).sublist.subset hc2
    exact (List.dropWhile_sublist _).subset hc3
  have hchars : ∀ c ∈ slug, isLowerAlnum c = true ∨ c = '-' := by
    intro c hc
    exact mem_hyphenateGo false s3 c (hsub c hc)
  refine ⟨hne, ?_, hchars, ?_, ?_, hdots.1, hdots.2, ?_⟩
  · calc slug.length ≤ (s5.take 50).length :=
          (dropTrailHyphens_isPrefix _).length_le
      _ ≤ 50 := List.length_take_le 50 s5
  · intro c hc
    have hc1 : (s5.take 50).head? = some c :=
      head?_mono_of_isPrefix (dropTrailHyphens_isPrefix _) hc
    have hc2 : s5.head? = some c :=
      head?_mono_of_isPrefix (List.take_prefix 50 s5) hc1
    have hc3 : (dropLeadHyphens s4).head? = some c :=
      head?_mono_of_isPrefix (dropTrailHyphens_isPrefix _) hc2
    have hf := dropWhile_head?_false _ _ _ hc3
    simpa using hf
  · intro c hc
    exact dropTrailHyphens_getLast_ne _ _ hc
  · intro c hc
    exact slugChar_not_space_not_upper c (hchars c hc)

/-- Witness for C9: generate_slug on the concrete feature description
"Add a dark_mode toggle" returns "add-dark-mode-toggle", which enjoys
the guaranteed shape. -/
theorem generate_slug_sound_witness :
    String.toList "add-dark-mode-toggle" ≠ [] ∧
    (String.toList "add-dark-mode-toggle").length ≤ 50 ∧
    hasDotDot (String.toList "add-dark-mode-toggle") = false ∧
    (String.toList "add-dark-mode-toggle").contains '/' = false := by
  have h := generate_slug_sound (String.toList "Add a dark_mode toggle")
      (String.toList "add-dark-mode-toggle") (by decide)
  exact ⟨h.1, h.2.1, h.2.2.2.2.2.1, h.2.2.2.2.2.2.1⟩

theorem parseVotes_some (votes : List String)
    (h : ∀ v ∈ votes, (parseVote v).isSome) :
    ∃ parsed, parseVotes votes = some parsed := by
  induction votes with
  | nil => exact ⟨[], rfl⟩
  | cons v vs ih =>
    obtain ⟨x, hx⟩ := Option.isSome_iff_exists.mp (h v (List.mem_cons_self v vs))
    obtain ⟨rest, hrest⟩ := ih (fun u hu => h u (List.mem_cons_of_mem v hu))
    exact ⟨x :: rest, by simp [parseVotes, hx, hrest]⟩

theorem parseVotes_none_iff (votes : List String) :
    parseVotes votes = none ↔ ∃ v ∈ votes, parseVote v = none := by
  induction votes with
  | nil => simp [parseVotes]
  | cons v vs ih =>
    cases hv : parseVote v with
    | none =>
      simp only [parseVotes, hv]
      constructor
      · intro _
        exact ⟨v, List.mem_cons_self v vs, hv⟩
      · intro _
        trivial
    | some x =>
      cases hvs : parseVotes vs with
      | none =>
        simp only [parseVotes, hv, hvs]
        constructor
        · intro _
          obtain ⟨u, hu, hpu⟩ := ih.mp hvs
          exact ⟨u, List.mem_cons_of_mem v hu, hpu⟩
        · intro _
          trivial
      | some xs =>
        simp only [parseVotes, hv, hvs]
        constructor
        · intro hfalse
          cases hfalse
        · rintro ⟨u, hu, hpu⟩
          rcases List.mem_cons.mp hu with rfl | hu
          · rw [hv] at hpu
            cases hpu
          · have hn : parseVotes vs = none := ih.mpr ⟨u, hu, hpu⟩
            rw [hvs] at hn
            cases hn

/-- C2: for every non-empty vote sequence whose votes all parse and
every recognized strategy name, aggregation returns a result (never
absent), whose decision is approve or reject (never abstain). -/
theorem aggregate_total (votes : List String) (strategy : String) (k : Int)
    (hne : votes ≠ [])
    (hv : ∀ v ∈ votes, (parseVote v).isSome)
    (hs : (parseStrategy strategy).isSome) :
    (aggregate votes strategy k none).isOk = true ∧
    (∀ d m, aggregate votes strategy k none = Except.ok (d, m) →
      (d = Decision.approve ∨ d = Decision.reject)) := by
  have hemp : votes.isEmpty = false := by
    cases votes with
    | nil => exact absurd rfl hne
    | cons _ _ => rfl
  obtain ⟨strat, hstrat⟩ := Option.isSome_iff_exists.mp hs
  obtain ⟨parsed, hparsed⟩ := parseVotes_some votes hv
  constructor
  · simp [aggregate, hemp, hstrat, hparsed, Except.isOk, Except.toBool]
  · intro d m _
    cases d
    · exact Or.inl rfl
    · exact Or.inr rfl

/-- Witness for C2 at a concrete input. -/
theorem aggregate_total_witness :
    (aggregate ["approve"] "majority" 2 none).isOk = true :=
  (aggregate_total ["approve"] "majority" 2 (by decide)
    (by intro v hv; simp at hv; subst hv; rfl) (by rfl)).1

/-- C3: aggregate fails (with the single error kind InvalidInput, the
only error type of the model) exactly when the vote list is empty, the
strategy is unrecognized, some vote does not parse after lowercasing,
or a supplied weight list has mismatched length; on validated input it
always returns a result. -/
theorem aggregate_error_iff (votes : List String) (strategy : String) (k : Int)
    (weights : Option (List Rat)) :
    (∃ e : InvalidInput, aggregate votes strategy k weights = Except.error e) ↔
      (votes = [] ∨ parseStrategy strategy = none ∨
       (∃ v ∈ votes, parseVote v = none) ∨
       (∃ ws, weights = some ws ∧ ws.length ≠ votes.length)) := by
  by_cases hemp : votes.isEmpty
  · have : votes = [] := List.isEmpty_iff.mp hemp
    subst this
    constructor
    · intro _
      exact Or.inl rfl
    · intro _
      exact ⟨⟨"empty vote list"⟩, rfl⟩
  · have hne : ¬(votes = []) := fun h => hemp (by simp [h])
    have hemp' : votes.isEmpty = false := Bool.not_eq_true _ |>.mp hemp
    cases hstrat : parseStrategy strategy with
    | none =>
      constructor
      · intro _
        exact Or.inr (Or.inl rfl)
      · intro _
        exact ⟨⟨"unrecognized strategy"⟩, by simp [aggregate, hemp', hstrat]⟩
    | some strat =>
      cases hmap : parseVotes votes with
      | none =>
        constructor
        · intro _
          exact Or.inr (Or.inr (Or.inl ((parseVotes_none_iff votes).mp hmap)))
        · intro _
          exact ⟨⟨"invalid vote value"⟩, by simp [aggregate, hemp', hstrat, hmap]⟩
      | some parsed =>
        have hnov : ¬ ∃ v ∈ votes, parseVote v = none := by
          intro hex
          have := (parseVotes_none_iff votes).mpr hex
          rw [hmap] at this
          cases this
        cases weights with
        | none =>
          constructor
          · rintro ⟨e, he⟩
            simp [aggregate, hemp', hstrat, hmap] at he
          · rintro (h | h | h | ⟨ws, hws, -⟩)
            · exact absurd h hne
            · simp [hstrat] at h
            · exact absurd h hnov
            · cases hws
        | some ws =>
          by_cases hlen : ws.length = votes.length
          · constructor
            · rintro ⟨e, he⟩
              simp [aggregate, hemp', hstrat, hmap, hlen] at he
            · rintro (h | h | h | ⟨ws', hws', hlen'⟩)
              · exact absurd h hne
              · simp [hstrat] at h
              · exact absurd h hnov
              · rw [Option.some_inj] at hws'
                subst hws'
                exact absurd hlen hlen'
          · constructor
            · intro _
              exact Or.inr (Or.inr (Or.inr ⟨ws, rfl, hlen⟩))
            · intro _
              exact ⟨⟨"weight list length mismatch"⟩,
                by simp [aggregate, hemp', hstrat, hmap, hlen]⟩

/-- C8: aggregation is deterministic, a pure function of
(votes, strategy, k, weights): in this model aggregate is a (Lean)
function, so equal inputs give equal decision and metadata; there is no
hidden state or randomness to model. -/
theorem aggregate_deterministic (v₁ v₂ : List String) (s₁ s₂ : String)
    (k₁ k₂ : Int) (w₁ w₂ : Option (List Rat))
    (hv : v₁ = v₂) (hs : s₁ = s₂) (hk : k₁ = k₂) (hw : w₁ = w₂) :
    aggregate v₁ s₁ k₁ w₁ = aggregate v₂ s₂ k₂ w₂ := by
  subst hv
  subst hs
  subst hk
  subst hw
  rfl

/-- Witness for C8 at a concrete input. -/
theorem aggregate_deterministic_witness :
    aggregate ["approve", "reject"] "first_to_ahead_by_k" 2 none
      = aggregate ["approve", "reject"] "first_to_ahead_by_k" 2 none :=
  aggregate_deterministic ["approve", "reject"] ["approve", "reject"]
    "first_to_ahead_by_k" "first_to_ahead_by_k" 2 2 none none rfl rfl rfl rfl

/-- C4: the unanimous strategy counts over the full sequence
order-independently; it rejects iff some vote is reject or no vote is
approve (all abstain), and the unanimous flag is set iff there is no
reject and at least one approve; with the spec's two examples. -/
theorem unanimous_correct :
    (∀ votes votes' : List Vote, votes.Perm votes' →
        unanimousStrategy votes = unanimousStrategy votes') ∧
    (∀ votes : List Vote, votes ≠ [] →
      (((unanimousStrategy votes).1 = Decision.reject) ↔
        (Vote.reject ∈ votes ∨ Vote.approve ∉ votes)) ∧
      (((unanimousStrategy votes).2.unanimous = true) ↔
        (Vote.reject ∉ votes ∧ Vote.approve ∈ votes))) ∧
    unanimousStrategy [Vote.approve, Vote.approve, Vote.approve]
      = (Decision.approve,
         { votes_used := 3, total_votes := 3, approve_count := 3,
           reject_count := 0, abstain_count := 0, early_stop := false,
           unanimous := true }) ∧
    (unanimousStrategy [Vote.approve, Vote.reject, Vote.approve]).1
      = Decision.reject := by
  refine ⟨?_, ?_, by decide, by decide⟩
  · intro votes votes' hp
    simp [unanimousStrategy, hp.count_eq, hp.length_eq]
  · intro votes _
    constructor
    · by_cases hr : 0 < votes.count Vote.reject
      · simp only [unanimousStrategy, if_pos hr]
        constructor
        · intro _
          exact Or.inl (List.count_pos_iff.mp hr)
        · intro _
          trivial
      · have hrn : Vote.reject ∉ votes := by
          intro hmem
          exact hr (List.count_pos_iff.mpr hmem)
        by_cases ha : 0 < votes.count Vote.approve
        · simp only [unanimousStrategy, if_neg hr, if_pos ha]
          constructor
          · intro hcontr
            cases hcontr
          · rintro (hmem | hnot)
            · exact absurd hmem hrn
            · exact absurd (List.count_pos_iff.mp ha) hnot
        · have han : Vote.approve ∉ votes := by
            intro hmem
            exact ha (List.count_pos_iff.mpr hmem)
          simp only [unanimousStrategy, if_neg hr, if_neg ha]
          constructor
          · intro _
            exact Or.inr han
          · intro _
            trivial
    · simp only [unanimousStrategy, decide_eq_true_eq]
      constructor
      · rintro ⟨hr0, ha1⟩
        exact ⟨List.count_eq_zero.mp hr0, List.count_pos_iff.mp ha1⟩
      · rintro ⟨hrn, ham⟩
        exact ⟨List.count_eq_zero.mpr hrn, List.count_pos_iff.mpr ham⟩

/-- Witness for C4 at concrete inputs: a permutation instance and the
decision characterization at a singleton approve list. -/
theorem unanimous_correct_witness :
    unanimousStrategy [Vote.approve, Vote.abstain]
      = unanimousStrategy [Vote.abstain, Vote.approve] ∧
    ((unanimousStrategy [Vote.approve]).1 = Decision.reject ↔
      (Vote.reject ∈ [Vote.approve] ∨ Vote.approve ∉ [Vote.approve])) :=
  ⟨unanimous_correct.1 [Vote.approve, Vote.abstain] [Vote.abstain, Vote.approve]
      (List.Perm.swap Vote.abstain Vote.approve []),
   (unanimous_correct.2.1 [Vote.approve] (by decide)).1⟩

/-- C5: the majority strategy counts over the full sequence
order-independently; with no decisive votes it rejects, otherwise the
strictly greater count wins with ties rejecting; percentage is the
approve share of non-abstain votes (0 when there are none) and the tie
flag marks an exact decisive tie; with the spec's example. -/
theorem majority_correct :
    (∀ votes votes' : List Vote, votes.Perm votes' →
        majorityStrategy votes = majorityStrategy votes') ∧
    (∀ votes : List Vote, votes ≠ [] →
      (((majorityStrategy votes).1 = Decision.approve) ↔
        votes.count Vote.reject < votes.count Vote.approve) ∧
      ((majorityStrategy votes).2.percentage =
        (if votes.count Vote.approve + votes.count Vote.reject = 0 then 0
         else (votes.count Vote.approve : Rat)
           / ((votes.count Vote.approve + votes.count Vote.reject : Nat) : Rat)
           * 100)) ∧
      (((majorityStrategy votes).2.tie = true) ↔
        (votes.count Vote.approve = votes.count Vote.reject ∧
          0 < votes.count Vote.approve + votes.count Vote.reject))) ∧
    ((majorityStrategy [Vote.approve, Vote.reject, Vote.approve]).1
        = Decision.approve ∧
     (majorityStrategy [Vote.approve, Vote.reject, Vote.approve]).2.percentage
        = 200 / 3) := by
  refine ⟨?_, ?_, by decide, ?pct⟩
  case pct =>
    have h1 : List.count Vote.approve [Vote.approve, Vote.reject, Vote.approve] = 2 := by
      decide
    have h2 : List.count Vote.reject [Vote.approve, Vote.reject, Vote.approve] = 1 := by
      decide
    simp only [majorityStrategy, h1, h2]
    norm_num
  · intro votes votes' hp
    simp [majorityStrategy, hp.count_eq, hp.length_eq]
  · intro votes _
    refine ⟨?_, ?_, ?_⟩
    rotate_left
    · rfl
    · simp only [majorityStrategy, decide_eq_true_eq]
    · by_cases hna : votes.count Vote.approve + votes.count Vote.reject = 0
      · simp only [majorityStrategy, if_pos hna]
        constructor
        · intro hcontr
          cases hcontr
        · intro hlt
          exact absurd hlt (by omega)
      · by_cases hlt : votes.count Vote.reject < votes.count Vote.approve
        · simp only [majorityStrategy, if_neg hna, if_pos hlt]
          exact ⟨fun _ => hlt, fun _ => trivial⟩
        · simp only [majorityStrategy, if_neg hna, if_neg hlt]
          constructor
          · intro hcontr
            cases hcontr
          · intro h
            exact absurd h hlt

/-- Witness for C5 at a concrete input: the decision characterization
at a singleton approve list. -/
theorem majority_correct_witness :
    ((majorityStrategy [Vote.approve]).1 = Decision.approve ↔
      List.count Vote.reject [Vote.approve] < List.count Vote.approve [Vote.approve]) :=
  (majority_correct.2.1 [Vote.approve] (by decide)).1

theorem weight_sum_nonneg (votes : List Vote) (ws : List Rat)
    (hw : ∀ w ∈ ws, 0 ≤ w) (v : Vote) :
    0 ≤ (((votes.zip ws).filter (fun p => p.1 = v)).map (fun p => p.2)).sum := by
  apply List.sum_nonneg
  intro x hx
  obtain ⟨p, hp, rfl⟩ := List.mem_map.mp hx
  have hmem : p ∈ votes.zip ws := List.mem_of_mem_filter hp
  obtain ⟨p1, p2⟩ := p
  exact hw p2 (List.of_mem_zip hmem).2

theorem wdecision_iff (aw rw : Rat) (_ha : 0 ≤ aw) (hr : 0 ≤ rw) :
    ((if aw + rw = 0 then Decision.reject
      else if rw < aw then Decision.approve else Decision.reject)
        = Decision.approve) ↔ rw < aw := by
  by_cases htw : aw + rw = 0
  · rw [if_pos htw]
    constructor
    · intro hcontr
      cases hcontr
    · intro hlt
      have haw : aw = 0 := by linarith
      have hrw : rw = 0 := by linarith
      rw [haw, hrw] at hlt
      exact absurd hlt (lt_irrefl 0)
  · rw [if_neg htw]
    by_cases hlt : rw < aw
    · rw [if_pos hlt]
      exact ⟨fun _ => hlt, fun _ => rfl⟩
    · rw [if_neg hlt]
      constructor
      · intro hcontr
        cases hcontr
      · intro h
        exact absurd h hlt

theorem aggregate_default_weights (votes : List String) (strategy : String) (k : Int) :
    aggregate votes strategy k none
      = aggregate votes strategy k (some (List.replicate votes.length 1)) := by
  by_cases hemp : votes.isEmpty
  · simp [aggregate, hemp]
  · have hemp' : votes.isEmpty = false := Bool.not_eq_true _ |>.mp hemp
    cases hstrat : parseStrategy strategy with
    | none => simp [aggregate, hemp', hstrat]
    | some strat =>
      cases hmap : parseVotes votes with
      | none => simp [aggregate, hemp', hstrat, hmap]
      | some parsed => simp [aggregate, hemp', hstrat, hmap]

/-- C6: the weighted strategy sums weights per category by positional
pairing; with non-negative weights the decision is approve exactly when
the approve weight strictly exceeds the reject weight (so zero total
weight and exact equality resolve to reject); omitting weights is the
same as supplying all-1.0 weights; with the spec's example. -/
theorem weighted_correct :
    (∀ (votes : List Vote) (ws : List Rat), ws.length = votes.length →
      (∀ w ∈ ws, 0 ≤ w) → votes ≠ [] →
      (((weightedStrategy votes ws).1 = Decision.approve) ↔
        (weightedStrategy votes ws).2.reject_weight
          < (weightedStrategy votes ws).2.approve_weight) ∧
      ((weightedStrategy votes ws).2.total_weight =
        (weightedStrategy votes ws).2.approve_weight
          + (weightedStrategy votes ws).2.reject_weight)) ∧
    (∀ (votes : List String) (strategy : String) (k : Int),
      aggregate votes strategy k none
        = aggregate votes strategy k (some (List.replicate votes.length 1))) ∧
    ((weightedStrategy [Vote.approve, Vote.reject, Vote.approve]
        [(1.5 : Rat), 1, 1.2]).2.approve_weight = 2.7 ∧
     (weightedStrategy [Vote.approve, Vote.reject, Vote.approve]
        [(1.5 : Rat), 1, 1.2]).2.reject_weight = 1 ∧
     (weightedStrategy [Vote.approve, Vote.reject, Vote.approve]
        [(1.5 : Rat), 1, 1.2]).1 = Decision.approve) := by
  refine ⟨?_, aggregate_default_weights, ?_, ?_, ?_⟩
  · intro votes ws _ hw _
    refine ⟨?_, rfl⟩
    exact wdecision_iff _ _ (weight_sum_nonneg votes ws hw Vote.approve)
      (weight_sum_nonneg votes ws hw Vote.reject)
  · simp +decide [weightedStrategy]
    norm_num
  · simp +decide [weightedStrategy]
  · simp +decide [weightedStrategy]
    norm_num

/-- Witness for C6 at a concrete input: the decision characterization
and total weight identity for one approve vote of weight one. -/
theorem weighted_correct_witness :
    (((weightedStrategy [Vote.approve] [(1 : Rat)]).1 = Decision.approve) ↔
      (weightedStrategy [Vote.approve] [(1 : Rat)]).2.reject_weight
        < (weightedStrategy [Vote.approve] [(1 : Rat)]).2.approve_weight) ∧
    ((weightedStrategy [Vote.approve] [(1 : Rat)]).2.total_weight =
      (weightedStrategy [Vote.approve] [(1 : Rat)]).2.approve_weight
        + (weightedStrategy [Vote.approve] [(1 : Rat)]).2.reject_weight) :=
  weighted_correct.1 [Vote.approve] [(1 : Rat)] rfl
    (by intro w hw; simp at hw; rw [hw]; norm_num) (by simp)

theorem ftakGo_invariant (k : Int) :
    ∀ (votes : List Vote) (total used a r : Nat), used + votes.length = total →
      ((ftakGo k total votes used a r).2.votes_used
          ≤ (ftakGo k total votes used a r).2.total_votes ∧
       ((ftakGo k total votes used a r).2.early_stop = true ↔
         (ftakGo k total votes used a r).2.votes_used
           < (ftakGo k total votes used a r).2.total_votes)) := by
  intro votes
  induction votes with
  | nil =>
    intro total used a r _
    simp [ftakGo]
  | cons v rest ih =>
    intro total used a r htot
    simp only [List.length_cons] at htot
    simp only [ftakGo]
    split_ifs <;>
      first
        | exact ih total (used + 1) _ _ (by omega)
        | exact ⟨by simp; omega, by simp⟩

theorem vu_third (a b : Nat) (es : Bool) (h1 : a ≤ b) (h2 : es = true ↔ a < b) :
    (a = b ↔ es = false) := by
  constructor
  · intro heq
    cases hes : es
    · rfl
    · have := h2.mp hes
      omega
  · intro hes
    have hnl : ¬ a < b := by
      intro hlt
      rw [h2.mpr hlt] at hes
      cases hes
    omega

/-- C7: every successful aggregation has votes_used bounded by
total_votes, with equality exactly when no strategy stopped early, and
the early_stop flag set exactly when votes_used is strictly below
total_votes. -/
theorem aggregate_votes_used (votes : List String) (strategy : String) (k : Int)
    (weights : Option (List Rat)) (d : Decision) (m : Metadata)
    (h : aggregate votes strategy k weights = Except.ok (d, m)) :
    m.votes_used ≤ m.total_votes ∧
    (m.early_stop = true ↔ m.votes_used < m.total_votes) ∧
    (m.votes_used = m.total_votes ↔ m.early_stop = false) := by
  have hrun : ∃ (strat : Strategy) (parsed : List Vote) (ws : List Rat),
      runStrategy strat parsed k ws = (d, m) := by
    by_cases hemp : votes.isEmpty
    · simp [aggregate, hemp] at h
    · have hemp' : votes.isEmpty = false := Bool.not_eq_true _ |>.mp hemp
      cases hstrat : parseStrategy strategy with
      | none => simp [aggregate, hemp', hstrat] at h
      | some strat =>
        cases hmap : parseVotes votes with
        | none => simp [aggregate, hemp', hstrat, hmap] at h
        | some parsed =>
          cases weights with
          | none =>
            simp only [aggregate, hemp', hstrat, hmap, Bool.false_eq_true,
              if_false, Except.ok.injEq] at h
            exact ⟨strat, parsed, List.replicate votes.length 1, h⟩
          | some ws =>
            by_cases hlen : ws.length = votes.length
            · simp only [aggregate, hemp', hstrat, hmap, hlen, Bool.false_eq_true,
                if_false, if_true, Except.ok.injEq] at h
              exact ⟨strat, parsed, ws, h⟩
            · simp [aggregate, hemp', hstrat, hmap, hlen] at h
  obtain ⟨strat, parsed, ws, hrun⟩ := hrun
  cases strat with
  | firstToAheadByK =>
    simp only [runStrategy, firstToAheadByK] at hrun
    have hm := congrArg Prod.snd hrun
    simp only at hm
    subst hm
    have h2 := ftakGo_invariant k parsed parsed.length 0 0 0 (by simp)
    exact ⟨h2.1, h2.2, vu_third _ _ _ h2.1 h2.2⟩
  | unanimousStrat =>
    simp only [runStrategy, unanimousStrategy] at hrun
    have hm := congrArg Prod.snd hrun
    simp only at hm
    subst hm
    simp
  | majorityStrat =>
    simp only [runStrategy, majorityStrategy] at hrun
    have hm := congrArg Prod.snd hrun
    simp only at hm
    subst hm
    simp
  | weightedStrat =>
    simp only [runStrategy, weightedStrategy] at hrun
    have hm := congrArg Prod.snd hrun
    simp only at hm
    subst hm
    simp

/-- Witness for C7 at a concrete input: one approve vote aggregated
under the unanimous strategy. -/
theorem aggregate_votes_used_witness :
    (1 : Nat) ≤ 1 ∧ ((false = true) ↔ (1 : Nat) < 1) ∧ ((1 : Nat) = 1 ↔ false = false) := by
  have h := aggregate_votes_used ["approve"] "unanimous" 2 none Decision.approve
    { votes_used := 1, total_votes := 1, approve_count := 1, reject_count := 0,
      abstain_count := 0, early_stop := false, unanimous := true } (by rfl)
  exact h

theorem take_succ_append (p : List Vote) (v : Vote) (rest : List Vote) :
    (p ++ v :: rest).take (p.length + 1) = p ++ [v] := by
  rw [show p ++ v :: rest = (p ++ [v]) ++ rest by simp]
  exact List.take_left' (by simp)

theorem marginAt_head (p : List Vote) (v : Vote) (rest : List Vote) :
    marginAt (p ++ v :: rest) (p.length + 1)
      = (((p ++ [v]).count Vote.approve : Int))
        - (((p ++ [v]).count Vote.reject : Int)) := by
  simp only [marginAt, take_succ_append]

theorem ftakGo_eq_spec (k : Int) :
    ∀ (rest p : List Vote),
      (∀ j, 1 ≤ j → j ≤ p.length →
        ¬(k ≤ marginAt (p ++ rest) j ∨ marginAt (p ++ rest) j ≤ -k)) →
      ftakGo k (p.length + rest.length) rest p.length
          (p.count Vote.approve) (p.count Vote.reject)
        = ftakSpec (p ++ rest) k := by
  intro rest
  induction rest with
  | nil =>
    intro p hfail
    rw [List.append_nil] at hfail ⊢
    have hfind : (List.range' 1 p.length).find?
        (fun j => decide (k ≤ marginAt p j ∨ marginAt p j ≤ -k)) = none := by
      rw [List.find?_eq_none]
      intro j hj
      rw [List.mem_range'_1] at hj
      simp only [decide_eq_true_eq]
      exact hfail j hj.1 (by omega)
    simp only [Bool.decide_or] at hfind
    simp [ftakGo, ftakSpec, hfind]
  | cons v rest' ih =>
    intro p hfail
    have hA : (if v = Vote.approve then p.count Vote.approve + 1 else p.count Vote.approve)
        = (p ++ [v]).count Vote.approve := by
      by_cases hv : v = Vote.approve
      · simp [hv]
      · have h0 : List.count Vote.approve [v] = 0 := by
          rw [List.count_eq_zero, List.mem_singleton]
          exact fun h => hv h.symm
        simp [hv, h0]
    have hR : (if v = Vote.reject then p.count Vote.reject + 1 else p.count Vote.reject)
        = (p ++ [v]).count Vote.reject := by
      by_cases hv : v = Vote.reject
      · simp [hv]
      · have h0 : List.count Vote.reject [v] = 0 := by
          rw [List.count_eq_zero, List.mem_singleton]
          exact fun h => hv h.symm
        simp [hv, h0]
    have hM := marginAt_head p v rest'
    by_cases hstop : k ≤ marginAt (p ++ v :: rest') (p.length + 1)
        ∨ marginAt (p ++ v :: rest') (p.length + 1) ≤ -k
    · have hfind : (List.range' 1 (p ++ v :: rest').length).find?
          (fun j => decide (k ≤ marginAt (p ++ v :: rest') j
            ∨ marginAt (p ++ v :: rest') j ≤ -k)) = some (p.length + 1) := by
        have hsplit : List.range' 1 (p ++ v :: rest').length
            = List.range' 1 p.length ++ List.range' (1 + p.length) (rest'.length + 1) := by
          rw [List.range'_append_1]
          congr 1
          simp
          omega
        rw [hsplit, List.find?_append]
        have hnone : (List.range' 1 p.length).find?
            (fun j => decide (k ≤ marginAt (p ++ v :: rest') j
              ∨ marginAt (p ++ v :: rest') j ≤ -k)) = none := by
          rw [List.find?_eq_none]
          intro j hj
          rw [List.mem_range'_1] at hj
          simp only [decide_eq_true_eq]
          exact hfail j hj.1 (by omega)
        rw [hnone, Option.none_or, List.range'_succ]
        rw [List.find?_cons_of_pos]
        · congr 1
          omega
        · simp only [decide_eq_true_eq]
          rw [Nat.add_comm 1 p.length]
          exact hstop
      rw [hM] at hstop
      simp only [ftakGo, ftakSpec, hfind]
      rw [hA, hR]
      simp only [take_succ_append]
      rw [hM]
      simp only [List.length_append, List.length_cons]
      by_cases h2 : k ≤ ((p ++ [v]).count Vote.approve : Int)
          - ((p ++ [v]).count Vote.reject : Int)
      · rw [if_pos h2, if_pos h2]
      · rcases hstop with h1 | h1
        · exact absurd h1 h2
        · rw [if_neg h2, if_pos h1, if_neg h2]
    · have hfail2 : ∀ j, 1 ≤ j → j ≤ (p ++ [v]).length →
          ¬(k ≤ marginAt ((p ++ [v]) ++ rest') j
            ∨ marginAt ((p ++ [v]) ++ rest') j ≤ -k) := by
        intro j hj1 hj2
        rw [show (p ++ [v]) ++ rest' = p ++ v :: rest' by simp]
        rw [show (p ++ [v]).length = p.length + 1 by simp] at hj2
        rcases Nat.lt_or_ge j (p.length + 1) with hlt | hge
        · exact hfail j hj1 (by omega)
        · have hj : j = p.length + 1 := by omega
          subst hj
          exact hstop
      have hih := ih (p ++ [v]) hfail2
      rw [show (p ++ [v]).length = p.length + 1 by simp] at hih
      rw [show p.length + 1 + rest'.length = p.length + (rest'.length + 1) by omega] at hih
      rw [show (p ++ [v]) ++ rest' = p ++ v :: rest' by simp] at hih
      rw [hM] at hstop
      obtain ⟨h1, h2⟩ := not_or.mp hstop
      simp only [ftakGo]
      rw [hA, hR]
      rw [if_neg h1, if_neg h2]
      simp only [List.length_cons]
      exact hih

/-- C1: the first_to_ahead_by_k strategy with threshold k at least 1
behaves as the first-passage description: it equals the declarative
ftakSpec, which stops at the least 1-based position whose running
margin reaches k (decision approve) or -k (decision reject) and
otherwise falls back to endpoint comparison with ties rejecting; the
spec's two examples stop after 2 votes with approve / fall back to
reject with tie_broken. -/
theorem firstToAheadByK_correct (k : Int) (_hk : 1 ≤ k) :
    (∀ votes : List Vote, firstToAheadByK votes k = ftakSpec votes k) ∧
    firstToAheadByK [Vote.approve, Vote.approve, Vote.reject] 2
      = (Decision.approve,
         { votes_used := 2, total_votes := 3, approve_count := 2, reject_count := 0,
           k_threshold := 2, margin := 2, early_stop := true, tie_broken := false }) ∧
    firstToAheadByK [Vote.approve, Vote.reject] 2
      = (Decision.reject,
         { votes_used := 2, total_votes := 2, approve_count := 1, reject_count := 1,
           k_threshold := 2, margin := 0, early_stop := false, tie_broken := true }) := by
  refine ⟨?_, by decide, by decide⟩
  intro votes
  have h := ftakGo_eq_spec k votes []
      (by
        intro j hj1 hj2
        simp at hj2
        exact absurd hj1 (by omega))
  simp only [List.nil_append, List.length_nil, List.count_nil, Nat.zero_add] at h
  simpa [firstToAheadByK] using h

/-- Witness for C1: the loop matches the first-passage description at a
concrete input with k = 2. -/
theorem firstToAheadByK_correct_witness :
    firstToAheadByK [Vote.approve, Vote.reject, Vote.approve] 2
      = ftakSpec [Vote.approve, Vote.reject, Vote.approve] 2 :=
  (firstToAheadByK_correct 2 (by decide)).1 [Vote.approve, Vote.reject, Vote.approve]

end SpecFlow
